import Mathlib

/-!
Verification development for the moltbook-network-analysis repository.

The statistical core of the repository lives in
`src/analysis/rigorous_analysis.py`, `src/analysis/network_stats.py`,
`src/analysis/degree_distribution.py` and `src/analysis/run_exhaustive.py`.
This file gives a shallow embedding of those functions and proves the
specification claims about them.

Modelling conventions:
* A Python `defaultdict(lambda: defaultdict(int))` adjacency mapping is
  embedded as an association list `Adjacency`; `addEdge` is the increment
  `adjacency[src][tgt] += 1` (inserting a fresh key at the end, as Python
  dicts keep insertion order).
* Python string comparison is by code point; `charListLt` is that order on
  the character data (structurally recursive, so it evaluates in the kernel).
* Exact rational arithmetic (`ℚ`) stands for Python's division where the
  operands are integers; the power-law fitter, which uses `math.log` and
  float `**`, is embedded over `ℝ` with `Real.log` and real exponentiation.
* `random.choices(edges, k=n)` is embedded by drawing indices from an
  arbitrary stream `g : ℕ → ℕ` reduced mod `edges.length`; the theorems
  quantify over every stream.
* A Python `IndexError` is embedded as the `Except` error value `PyErr.indexError`.
-/

/-- Python-style lexicographic comparison of character lists by code point;
structural recursion so that it evaluates by `decide`. -/
def charListLt : List Char → List Char → Bool
  | [], [] => false
  | [], _ :: _ => true
  | _ :: _, [] => false
  | a :: as, b :: bs =>
      if a.val < b.val then true
      else if a.val = b.val then charListLt as bs
      else false

/-- Python string `<` (code-point lexicographic order). -/
def strLt (a b : String) : Bool := charListLt a.data b.data

/-- `tuple(sorted([a, b]))` for two strings. -/
def sortPair (a b : String) : String × String := if strLt b a then (b, a) else (a, b)

/-- `defaultdict(lambda: defaultdict(int))`: source identity to
(target identity to weight). -/
abbrev Adjacency := List (String × List (String × ℕ))

/-- Dictionary key lookup (first matching key). -/
def alookup {β : Type} : List (String × β) → String → Option β
  | [], _ => none
  | p :: rest, a => if p.1 = a then some p.2 else alookup rest a

/-- `inner[tgt] += 1` on a target-to-weight dictionary. -/
def incr : List (String × ℕ) → String → List (String × ℕ)
  | [], tgt => [(tgt, 1)]
  | (t, w) :: rest, tgt =>
      if t = tgt then (t, w + 1) :: rest else (t, w) :: incr rest tgt

/-- `adjacency[src][tgt] += 1`. -/
def addEdge : Adjacency → String → String → Adjacency
  | [], src, tgt => [(src, [(tgt, 1)])]
  | (s, inner) :: rest, src, tgt =>
      if s = src then (s, incr inner tgt) :: rest
      else (s, inner) :: addEdge rest src tgt

/-- The weight stored for the ordered pair `(s, t)`; 0 when absent. -/
def weightOf (adj : Adjacency) (s t : String) : ℕ :=
  match alookup adj s with
  | none => 0
  | some inner =>
      match alookup inner t with
      | none => 0
      | some w => w

/-- `a in adjacency and b in adjacency[a]` (rigorous_analysis.py line 81). -/
def containsEdge (adj : Adjacency) (a b : String) : Bool :=
  match alookup adj a with
  | none => false
  | some inner => (alookup inner b).isSome

/-- `build_network` of rigorous_analysis.py (lines 46-64), at the granularity
of the derived attribution pairs (commenter, post_author): the edge is kept
when `commenter not in ("unknown", "") and post_author not in ("unknown", "")
and commenter != post_author`. -/
def build_network (edges : List (String × String)) : Adjacency :=
  edges.foldl
    (fun adj e =>
      if (e.1 ≠ ("unknown") ∧ e.1 ≠ ("")) ∧ (e.2 ≠ ("unknown") ∧ e.2 ≠ ("")) ∧ e.1 ≠ e.2
      then addEdge adj e.1 e.2 else adj)
    []

/-- `build_comment_network` of network_stats.py (lines 41-66): keeps the pair
when `commenter != "unknown" and post_author != "unknown" and
commenter != post_author` (an empty name is NOT filtered there), appending
the pair to the edge list and incrementing the adjacency weight. -/
def build_comment_network (edges : List (String × String)) :
    Adjacency × List (String × String) :=
  edges.foldl
    (fun st e =>
      if e.1 ≠ ("unknown") ∧ e.2 ≠ ("unknown") ∧ e.1 ≠ e.2
      then (addEdge st.1 e.1 e.2, st.2 ++ [e]) else st)
    ([], [])

/-- The raw list of canonicalized pairs `tuple(sorted([src, tgt]))`, one for
each (src, tgt) key pair of the adjacency (rigorous_analysis.py lines 71-76
collect these into a set; `.dedup` of this list models that set). -/
def rawPairs (adj : Adjacency) : List (String × String) :=
  adj.flatMap (fun p => p.2.map (fun q => sortPair p.1 q.1))

/-- `compute_dyadic_reciprocity` of rigorous_analysis.py (lines 66-84):
returns (reciprocity ratio, number of connected pairs, number of mutual
pairs). -/
def compute_dyadic_reciprocity (adj : Adjacency) : ℚ × ℕ × ℕ :=
  (if ((rawPairs adj).dedup.length ≠ 0) then
      ((((rawPairs adj).dedup.filter
          (fun p => containsEdge adj p.1 p.2 && containsEdge adj p.2 p.1)).length : ℚ)
        / (((rawPairs adj).dedup.length : ℕ) : ℚ))
    else 0,
   (rawPairs adj).dedup.length,
   ((rawPairs adj).dedup.filter
      (fun p => containsEdge adj p.1 p.2 && containsEdge adj p.2 p.1)).length)

/-- The node set of the graph: all sources and all targets. -/
def nodeFinset (adj : Adjacency) : Finset String :=
  (adj.map Prod.fst).toFinset ∪ (adj.flatMap (fun p => p.2.map Prod.fst)).toFinset

/-- There is a directed edge entry from `a` to `b`. -/
def hasDirectedEdge (adj : Adjacency) (a b : String) : Prop :=
  ∃ p ∈ adj, p.1 = a ∧ ∃ q ∈ p.2, q.1 = b

instance (adj : Adjacency) (a b : String) : Decidable (hasDirectedEdge adj a b) := by
  unfold hasDirectedEdge; infer_instance

/-- Specification-side set of unordered connected pairs, represented by their
canonical ordered form (first component strictly below the second in the
code-point order): pairs with at least one directed edge in either direction. -/
def connectedPairs (adj : Adjacency) : Finset (String × String) :=
  (nodeFinset adj ×ˢ nodeFinset adj).filter
    (fun p => strLt p.1 p.2 = true ∧ (hasDirectedEdge adj p.1 p.2 ∨ hasDirectedEdge adj p.2 p.1))

/-- Specification-side set of mutual pairs: directed edges in both directions. -/
def mutualPairs (adj : Adjacency) : Finset (String × String) :=
  (nodeFinset adj ×ˢ nodeFinset adj).filter
    (fun p => strLt p.1 p.2 = true ∧ hasDirectedEdge adj p.1 p.2 ∧ hasDirectedEdge adj p.2 p.1)

/-- The AdjacencyGraph invariant of the spec (section 3): distinct source
keys, distinct target keys per source, no self-loop entries, weights >= 1. -/
def WFAdj (adj : Adjacency) : Prop :=
  (adj.map Prod.fst).Nodup ∧
  (∀ p ∈ adj, (p.2.map Prod.fst).Nodup) ∧
  (∀ p ∈ adj, ∀ q ∈ p.2, p.1 ≠ q.1 ∧ 1 ≤ q.2)

instance (adj : Adjacency) : Decidable (WFAdj adj) := by
  unfold WFAdj; infer_instance

/-- The expanded multiset of directed edge occurrences, one per unit of
weight (rigorous_analysis.py lines 89-93). -/
def edgesOf (adj : Adjacency) : List (String × String) :=
  adj.flatMap (fun p => p.2.flatMap (fun q => List.replicate q.2 (p.1, q.1)))

/-- A Python runtime error surfaced by the embedded code. -/
inductive PyErr
  | indexError
deriving DecidableEq, Repr

/-- `random.choices(edges, k=k)`: `k` draws with replacement, the draws taken
from the index stream `g` starting at offset `off` (reduced mod the
population size, so that every stream denotes a sequence of valid draws;
the population is never empty where this is used under the claims). -/
def pyChoices (edges : List (String × String)) (k : ℕ) (g : ℕ → ℕ) (off : ℕ) :
    List (String × String) :=
  (List.range k).map (fun j => edges.getD (g (off + j) % edges.length) (("", "")))

/-- The fresh `sample_adj` rebuilt from one resample
(rigorous_analysis.py lines 101-103). -/
def rebuildAdj (sample : List (String × String)) : Adjacency :=
  sample.foldl (fun adj e => addEdge adj e.1 e.2) []

/-- The `n_samples` resamples drawn by `bootstrap_reciprocity`; resample `t`
draws `|edges|` occurrences (`range` of a nonpositive count is empty, as in
Python). -/
def bootSamples (adj : Adjacency) (n_samples : ℤ) (g : ℕ → ℕ) :
    List (List (String × String)) :=
  let edges := edgesOf adj
  (List.range n_samples.toNat).map (fun t => pyChoices edges edges.length g (t * edges.length))

/-- The list `reciprocities` of rigorous_analysis.py lines 95-106. -/
def bootRecips (adj : Adjacency) (n_samples : ℤ) (g : ℕ → ℕ) : List ℚ :=
  (bootSamples adj n_samples g).map
    (fun s => (compute_dyadic_reciprocity (rebuildAdj s)).1)

/-- Python `list[i]` for a nonnegative index: IndexError when out of range. -/
def pyGetElem (l : List ℚ) (i : ℕ) : Except PyErr ℚ :=
  if i < l.length then .ok (l.getD i 0) else .error PyErr.indexError

/-- `reciprocities.sort()` of rigorous_analysis.py line 108. -/
def bootSorted (adj : Adjacency) (n_samples : ℤ) (g : ℕ → ℕ) : List ℚ :=
  List.insertionSort (fun a b : ℚ => a ≤ b) (bootRecips adj n_samples g)

/-- `bootstrap_reciprocity` of rigorous_analysis.py (lines 86-112): sort the
resampled reciprocities ascending and read the CI bounds at indices
`int(0.025 * n_samples)` and `int(0.975 * n_samples)` (for a nonnegative
count these are `25 * n / 1000` and `975 * n / 1000` by floor division; for a
negative count the reciprocity list is empty and any index raises, exactly as
in Python). -/
def bootstrap_reciprocity (adj : Adjacency) (n_samples : ℤ) (g : ℕ → ℕ) :
    Except PyErr (ℚ × ℚ) := do
  let lo ← pyGetElem (bootSorted adj n_samples g) (25 * n_samples.toNat / 1000)
  let hi ← pyGetElem (bootSorted adj n_samples g) (975 * n_samples.toNat / 1000)
  return (lo, hi)

/-- Out-degree of `s`: total weight of entries whose source key is `s`
(network_stats.py line 74: `out_degrees[src] = sum(targets.values())`). -/
def outDegree (adj : Adjacency) (s : String) : ℕ :=
  ((adj.filter (fun p => p.1 = s)).map (fun p => (p.2.map Prod.snd).sum)).sum

/-- In-degree of `t`: total weight of entries whose target key is `t`
(network_stats.py lines 75-76: `in_degrees[tgt] += weight`). -/
def inDegree (adj : Adjacency) (t : String) : ℕ :=
  (adj.map (fun p => ((p.2.filter (fun q => q.1 = t)).map Prod.snd).sum)).sum

/-- Total weight of the adjacency structure. -/
def totalWeight (adj : Adjacency) : ℕ :=
  (adj.map (fun p => (p.2.map Prod.snd).sum)).sum

/-- `all_nodes = set(out_degrees.keys()) | set(in_degrees.keys())` of
network_stats.py line 78, as a deterministic duplicate-free list. -/
def nodeList (adj : Adjacency) : List String :=
  (adj.map Prod.fst ++ adj.flatMap (fun p => p.2.map Prod.fst)).dedup

/-- `out_vals = [out_degrees.get(n, 0) for n in all_nodes]`. -/
def outVals (adj : Adjacency) : List ℕ := (nodeList adj).map (outDegree adj)

/-- `in_vals = [in_degrees.get(n, 0) for n in all_nodes]`. -/
def inVals (adj : Adjacency) : List ℕ := (nodeList adj).map (inDegree adj)

/-- Python `sorted` on natural numbers (a stable comparison sort). -/
def pysort (l : List ℕ) : List ℕ := List.insertionSort (fun a b => a ≤ b) l

/-- `statistics.mean`, with the `if vals else 0` guard of
network_stats.py lines 86-91. -/
def pymean (l : List ℕ) : ℚ := if l.length ≠ 0 then (l.sum : ℚ) / (l.length : ℚ) else 0

/-- `statistics.median`: middle element of the ascending sort for odd length,
average of the two middle elements for even length (0 for the empty list,
where network_stats.py substitutes 0 before calling it). -/
def pymedian (l : List ℕ) : ℚ :=
  let s := pysort l
  let n := s.length
  if n = 0 then 0
  else if n % 2 = 1 then (s.getD (n / 2) 0 : ℚ)
  else ((s.getD (n / 2 - 1) 0 : ℚ) + (s.getD (n / 2) 0 : ℚ)) / 2

/-- `max(vals)` with the `if vals else 0` guard. -/
def pymax (l : List ℕ) : ℕ := l.foldl max 0

/-- The ad-hoc median of degree_distribution.py lines 104 and 119:
`sorted(vals)[len(vals)//2]`. -/
def ddMedian (l : List ℕ) : ℕ := (pysort l).getD (l.length / 2) 0

/-- The statistics record built by `compute_degree_stats` of
network_stats.py (lines 68-92). -/
structure DegreeStats where
  num_nodes : ℕ
  num_edges : ℕ
  out_degree_mean : ℚ
  out_degree_median : ℚ
  out_degree_max : ℕ
  in_degree_mean : ℚ
  in_degree_median : ℚ
  in_degree_max : ℕ
deriving DecidableEq, Repr

/-- `compute_degree_stats` of network_stats.py (lines 68-92). -/
def compute_degree_stats (adj : Adjacency) : DegreeStats :=
  { num_nodes := (nodeList adj).length
    num_edges := (outVals adj).sum
    out_degree_mean := pymean (outVals adj)
    out_degree_median := pymedian (outVals adj)
    out_degree_max := pymax (outVals adj)
    in_degree_mean := pymean (inVals adj)
    in_degree_median := pymedian (inVals adj)
    in_degree_max := pymax (inVals adj) }

/-- `compute_gini` of degree_distribution.py (lines 75-86): rank-weighted
formula over the ascending sort, 0 when the vector is empty or sums to 0. -/
def compute_gini (values : List ℕ) : ℚ :=
  let s := pysort values
  let n := s.length
  if n = 0 then 0
  else
    let cumsum : ℤ := (s.enum.map (fun p => (2 * ((p.1 : ℤ) + 1) - n - 1) * (p.2 : ℤ))).sum
    if 0 < s.sum then (cumsum : ℚ) / ((n : ℚ) * (s.sum : ℚ)) else 0

/-- The Gini expression of run_exhaustive.py (lines 126-132):
`(2 * cumsum) / (n * sum) - (n + 1) / n` over the ascending sort, with
`cumsum = sum((i + 1) * v)`; 0 when the sum is 0 (the script computes it only
for nonempty vectors, so the value at `n = 0` is immaterial here). -/
def giniExhaustive (values : List ℕ) : ℚ :=
  let s := pysort values
  let n := s.length
  if n = 0 then 0
  else if 0 < s.sum then
    let cumsum : ℚ := (s.enum.map (fun p => ((p.1 : ℚ) + 1) * (p.2 : ℚ))).sum
    2 * cumsum / ((n : ℚ) * (s.sum : ℚ)) - ((n : ℚ) + 1) / (n : ℚ)
  else 0

/-- `[k for k in degrees.values() if k >= k_min]` (the degree dictionary is
embedded as its list of values). -/
def tailValues (degrees : List ℕ) (kmin : ℕ) : List ℕ :=
  degrees.filter (fun k => decide (kmin ≤ k))

/-- `sorted([k for k in degrees.values() if k >= k_min])`
(rigorous_analysis.py line 119). -/
def sortedTail (degrees : List ℕ) (kmin : ℕ) : List ℕ := pysort (tailValues degrees kmin)

/-- `sum(math.log(k / (k_min - 0.5)) for k in values)`
(rigorous_analysis.py line 147). -/
noncomputable def sumLog (degrees : List ℕ) (kmin : ℕ) : ℝ :=
  ((tailValues degrees kmin).map
    (fun k => Real.log ((k : ℝ) / ((kmin : ℝ) - 0.5)))).sum

/-- `1 - (k / k_min) ** (1 - alpha)` (rigorous_analysis.py line 129). -/
noncomputable def theoreticalCdf (alpha : ℝ) (kmin k : ℕ) : ℝ :=
  1 - ((k : ℝ) / (kmin : ℝ)) ^ ((1 : ℝ) - alpha)

/-- `power_law_ks_test` of rigorous_analysis.py (lines 114-133): 1.0 when no
value reaches the cutoff, otherwise the loop accumulating
`max_d = max(max_d, abs(empirical_cdf - theoretical_cdf))` from 0 over the
enumerated ascending sort. -/
noncomputable def power_law_ks_test (degrees : List ℕ) (alpha : ℝ) (kmin : ℕ) : ℝ :=
  let values := sortedTail degrees kmin
  if values = [] then 1
  else
    values.enum.foldl
      (fun maxd p =>
        max maxd |((p.1 : ℝ) + 1) / (values.length : ℝ) - theoreticalCdf alpha kmin p.2|)
      0

/-- `alpha = 1 + n / sum_log` (rigorous_analysis.py line 151). -/
noncomputable def mleAlpha (degrees : List ℕ) (kmin : ℕ) : ℝ :=
  1 + ((tailValues degrees kmin).length : ℝ) / sumLog degrees kmin

/-- The KS statistic of the candidate `kmin` under its own MLE exponent. -/
noncomputable def ksOf (degrees : List ℕ) (kmin : ℕ) : ℝ :=
  power_law_ks_test degrees (mleAlpha degrees kmin) kmin

/-- A candidate cutoff is skipped when fewer than 50 values survive it or its
`sum_log` is nonpositive (rigorous_analysis.py lines 143-149). -/
def fitSkipped (degrees : List ℕ) (kmin : ℕ) : Prop :=
  (tailValues degrees kmin).length < 50 ∨ sumLog degrees kmin ≤ 0

/-- The fixed candidate cutoff set of rigorous_analysis.py line 141. -/
def candidateKmins : List ℕ := [1, 2, 3, 5, 10, 20]

open Classical in
/-- One iteration of the `for k_min in [1, 2, 3, 5, 10, 20]` loop of
`estimate_alpha_with_kmin_search`: the running best
`(best_kmin, best_alpha, best_ks)` is `none` while no candidate has fit
(`best_ks = inf` in the source, so the first valid candidate always wins),
and a valid candidate replaces the best exactly when `ks < best_ks`. -/
noncomputable def fitStep (degrees : List ℕ) (st : Option (ℕ × ℝ × ℝ)) (kmin : ℕ) :
    Option (ℕ × ℝ × ℝ) :=
  if (tailValues degrees kmin).length < 50 then st
  else if sumLog degrees kmin ≤ 0 then st
  else
    let alpha := mleAlpha degrees kmin
    let ks := power_law_ks_test degrees alpha kmin
    match st with
    | none => some (kmin, alpha, ks)
    | some (bk, ba, bks) =>
        if ks < bks then some (kmin, alpha, ks) else some (bk, ba, bks)

/-- `estimate_alpha_with_kmin_search` of rigorous_analysis.py (lines 135-159);
`none` models the `(None, None, inf)` return (no candidate yielded a fit). -/
noncomputable def estimate_alpha_with_kmin_search (degrees : List ℕ) :
    Option (ℕ × ℝ × ℝ) :=
  candidateKmins.foldl (fitStep degrees) none

/-! ## Generic list lemmas -/

theorem sum_map_enumFrom {M : Type} [AddCommMonoid M] (l : List ℕ) (k : ℕ) (f : ℕ × ℕ → M) :
    ((List.enumFrom k l).map f).sum = ∑ i ∈ Finset.range l.length, f (k + i, l.getD i 0) := by
  induction l generalizing k with
  | nil => simp
  | cons x xs ih =>
      simp only [List.enumFrom, List.map_cons, List.sum_cons, List.length_cons]
      rw [Finset.sum_range_succ', ih (k + 1)]
      have h0 : f (k + 0, (x :: xs).getD 0 0) = f (k, x) := by norm_num
      rw [h0, add_comm (f (k, x))]
      congr 1
      apply Finset.sum_congr rfl
      intro i _
      have h1 : k + 1 + i = k + (i + 1) := by omega
      rw [h1]
      rfl

theorem sum_map_enum {M : Type} [AddCommMonoid M] (l : List ℕ) (f : ℕ × ℕ → M) :
    (l.enum.map f).sum = ∑ i ∈ Finset.range l.length, f (i, l.getD i 0) := by
  have := sum_map_enumFrom l 0 f
  simpa [List.enum] using this

theorem sum_getD_eq_sum (l : List ℕ) :
    (∑ i ∈ Finset.range l.length, (l.getD i 0 : ℚ)) = (l.sum : ℚ) := by
  have h := sum_map_enum l (fun p => (p.2 : ℚ))
  have h2 : (l.enum.map (fun p => ((p.2 : ℕ) : ℚ))).sum = ((l.map Nat.cast).sum : ℚ) := by
    have hm : l.enum.map (fun p => ((p.2 : ℕ) : ℚ))
        = (l.enum.map Prod.snd).map (fun x : ℕ => (x : ℚ)) := by
      rw [List.map_map]
      rfl
    rw [hm, List.enum_map_snd]
  rw [h2, ← Nat.cast_list_sum] at h
  exact h.symm

theorem sum_two_mul_succ (n : ℕ) :
    (∑ i ∈ Finset.range n, (2 * ((i : ℤ) + 1))) = (n : ℤ) * ((n : ℤ) + 1) := by
  induction n with
  | zero => simp
  | succ m ih =>
      rw [Finset.sum_range_succ, ih]
      push_cast
      ring

theorem sum_rank_weights_zero (n : ℕ) :
    (∑ i ∈ Finset.range n, (2 * ((i : ℤ) + 1) - (n : ℤ) - 1)) = 0 := by
  have h1 : (∑ i ∈ Finset.range n, (2 * ((i : ℤ) + 1) - (n : ℤ) - 1))
      = (∑ i ∈ Finset.range n, (2 * ((i : ℤ) + 1))) - (∑ _i ∈ Finset.range n, ((n : ℤ) + 1)) := by
    rw [← Finset.sum_sub_distrib]
    apply Finset.sum_congr rfl
    intro i _
    ring
  rw [h1, sum_two_mul_succ, Finset.sum_const, Finset.card_range]
  ring

/-! ## Claim C7: the Gini coefficient of an all-equal vector is 0 -/

theorem pysort_length (l : List ℕ) : (pysort l).length = l.length :=
  (List.perm_insertionSort _ l).length_eq

theorem pysort_sum (l : List ℕ) : (pysort l).sum = l.sum :=
  (List.perm_insertionSort _ l).sum_eq

/-- Claim C7: for every non-empty degree vector whose entries are all equal
(including all zero), `compute_gini` — the rank-weighted formula of
degree_distribution.py — returns 0. -/
theorem compute_gini_all_equal (c : ℕ) (l : List ℕ) (hne : l ≠ [])
    (hall : ∀ x ∈ l, x = c) : compute_gini l = 0 := by
  have hs : pysort l = List.replicate l.length c := by
    rw [List.eq_replicate_iff]
    refine ⟨pysort_length l, ?_⟩
    intro b hb
    exact hall b ((List.perm_insertionSort _ l).mem_iff.mp hb)
  have hlen : l.length ≠ 0 := fun h => hne (List.length_eq_zero.mp h)
  unfold compute_gini
  simp only [pysort_length]
  rw [if_neg hlen]
  have hcum :
      ((pysort l).enum.map
        (fun p => (2 * ((p.1 : ℤ) + 1) - (l.length : ℤ) - 1) * (p.2 : ℤ))).sum = 0 := by
    rw [sum_map_enum, ← pysort_length l, hs]
    simp only [List.length_replicate]
    have : ∀ i ∈ Finset.range l.length,
        (2 * ((i : ℤ) + 1) - ((l.length : ℕ) : ℤ) - 1) * (((List.replicate l.length c).getD i 0 : ℕ) : ℤ)
          = (c : ℤ) * (2 * ((i : ℤ) + 1) - (l.length : ℤ) - 1) := by
      intro i hi
      have hilt : i < (List.replicate l.length c).length := by
        simpa using Finset.mem_range.mp hi
      rw [List.getD_eq_getElem _ _ hilt, List.getElem_replicate]
      ring
    rw [Finset.sum_congr rfl this, ← Finset.mul_sum, sum_rank_weights_zero, mul_zero]
  rw [hcum]
  split
  · simp
  · rfl

/-- Witness for C7 at the concrete all-equal vector [2, 2, 2]. -/
theorem compute_gini_all_equal_witness : compute_gini [2, 2, 2] = 0 :=
  compute_gini_all_equal 2 [2, 2, 2] (by decide) (by decide)

/-! ## Claim C10: the two Gini implementations agree -/

/-- Claim C10: on every non-empty degree vector with positive sum, the Gini
expression of run_exhaustive.py equals the rank-weighted `compute_gini` of
degree_distribution.py. -/
theorem gini_formulas_agree (l : List ℕ) (hne : l ≠ []) (hsum : 0 < l.sum) :
    compute_gini l = giniExhaustive l := by
  have hlen : l.length ≠ 0 := fun h => hne (List.length_eq_zero.mp h)
  have hsum' : 0 < (pysort l).sum := by rw [pysort_sum]; exact hsum
  unfold compute_gini giniExhaustive
  simp only [pysort_length]
  rw [if_neg hlen, if_neg hlen, if_pos hsum', if_pos hsum']
  set s := pysort l with hsdef
  have hslen : s.length = l.length := pysort_length l
  -- both cumulative sums as range sums over ℚ
  have hz :
      ((((s.enum.map (fun p => (2 * ((p.1 : ℤ) + 1) - (l.length : ℤ) - 1) * (p.2 : ℤ))).sum : ℤ)) : ℚ)
        = ∑ i ∈ Finset.range l.length,
            (2 * ((i : ℚ) + 1) - (l.length : ℚ) - 1) * ((s.getD i 0 : ℕ) : ℚ) := by
    rw [Int.cast_list_sum, List.map_map]
    have h := sum_map_enum s
      (fun p => (((2 * ((p.1 : ℤ) + 1) - (l.length : ℤ) - 1) * (p.2 : ℤ) : ℤ) : ℚ))
    rw [hslen] at h
    simp only [Function.comp_def]
    refine h.trans ?_
    apply Finset.sum_congr rfl
    intro i _
    push_cast
    ring
  have hq :
      (s.enum.map (fun p => ((p.1 : ℚ) + 1) * (p.2 : ℚ))).sum
        = ∑ i ∈ Finset.range l.length, ((i : ℚ) + 1) * ((s.getD i 0 : ℕ) : ℚ) := by
    have h := sum_map_enum s (fun p => (((p.1 : ℚ) + 1) * (p.2 : ℚ) : ℚ))
    rw [hslen] at h
    exact h
  rw [hz, hq]
  have hS : (∑ i ∈ Finset.range l.length, ((s.getD i 0 : ℕ) : ℚ)) = (s.sum : ℚ) := by
    have := sum_getD_eq_sum s
    rw [hslen] at this
    exact this
  -- expand the rank-weighted sum into the two pieces
  have hexpand :
      (∑ i ∈ Finset.range l.length,
          (2 * ((i : ℚ) + 1) - (l.length : ℚ) - 1) * ((s.getD i 0 : ℕ) : ℚ))
        = 2 * (∑ i ∈ Finset.range l.length, ((i : ℚ) + 1) * ((s.getD i 0 : ℕ) : ℚ))
          - ((l.length : ℚ) + 1) * (s.sum : ℚ) := by
    rw [← hS, Finset.mul_sum, Finset.mul_sum, ← Finset.sum_sub_distrib]
    apply Finset.sum_congr rfl
    intro i _
    ring
  rw [hexpand]
  have hn0 : ((l.length : ℚ)) ≠ 0 := Nat.cast_ne_zero.mpr hlen
  have hS0 : ((s.sum : ℕ) : ℚ) ≠ 0 := Nat.cast_ne_zero.mpr hsum'.ne'
  set A := ∑ i ∈ Finset.range l.length, ((i : ℚ) + 1) * ((s.getD i 0 : ℕ) : ℚ) with hA
  set S := ((s.sum : ℕ) : ℚ) with hSq
  set N := ((l.length : ℕ) : ℚ) with hN
  field_simp
  ring

/-- Witness for C10 at the concrete vector [1, 2]. -/
theorem gini_formulas_agree_witness : compute_gini [1, 2] = giniExhaustive [1, 2] :=
  gini_formulas_agree [1, 2] (by decide) (by decide)

/-! ## Claim C5: conservation of weight in the graph builders -/

theorem sum_filter_key {β : Type} (l : List (String × β)) (f : β → ℕ) (S : Finset String)
    (hS : ∀ p ∈ l, p.1 ∈ S) :
    (∑ s ∈ S, ((l.filter (fun p => p.1 = s)).map (fun p => f p.2)).sum)
      = (l.map (fun p => f p.2)).sum := by
  induction l with
  | nil => simp
  | cons p rest ih =>
      have hrest : ∀ q ∈ rest, q.1 ∈ S := fun q hq => hS q (List.mem_cons_of_mem p hq)
      have hp : p.1 ∈ S := hS p (List.mem_cons_self p rest)
      have hsplit : ∀ s : String,
          (((p :: rest).filter (fun q => q.1 = s)).map (fun q => f q.2)).sum
            = (if p.1 = s then f p.2 else 0)
              + ((rest.filter (fun q => q.1 = s)).map (fun q => f q.2)).sum := by
        intro s
        by_cases h : p.1 = s
        · simp [List.filter_cons, h]
        · simp [List.filter_cons, h]
      calc (∑ s ∈ S, (((p :: rest).filter (fun q => q.1 = s)).map (fun q => f q.2)).sum)
          = ∑ s ∈ S, ((if p.1 = s then f p.2 else 0)
              + ((rest.filter (fun q => q.1 = s)).map (fun q => f q.2)).sum) :=
            Finset.sum_congr rfl (fun s _ => hsplit s)
        _ = (∑ s ∈ S, if p.1 = s then f p.2 else 0)
              + ∑ s ∈ S, ((rest.filter (fun q => q.1 = s)).map (fun q => f q.2)).sum :=
            Finset.sum_add_distrib
        _ = f p.2 + (rest.map (fun q => f q.2)).sum := by
            rw [Finset.sum_ite_eq S p.1 (fun _ => f p.2), if_pos hp, ih hrest]
        _ = ((p :: rest).map (fun q => f q.2)).sum := by simp

theorem keys_mem_nodeFinset (adj : Adjacency) : ∀ p ∈ adj, p.1 ∈ nodeFinset adj := by
  intro p hp
  apply Finset.mem_union_left
  rw [List.mem_toFinset]
  exact List.mem_map_of_mem Prod.fst hp

theorem inner_keys_mem_nodeFinset (adj : Adjacency) :
    ∀ p ∈ adj, ∀ q ∈ p.2, q.1 ∈ nodeFinset adj := by
  intro p hp q hq
  apply Finset.mem_union_right
  rw [List.mem_toFinset, List.mem_flatMap]
  exact ⟨p, hp, List.mem_map_of_mem Prod.fst hq⟩

theorem sum_outDegree (adj : Adjacency) :
    (∑ s ∈ nodeFinset adj, outDegree adj s) = totalWeight adj := by
  unfold outDegree totalWeight
  exact sum_filter_key adj (fun inner => (inner.map Prod.snd).sum) (nodeFinset adj)
    (keys_mem_nodeFinset adj)

theorem sum_inDegree_aux (adj : Adjacency) (S : Finset String)
    (hS : ∀ p ∈ adj, ∀ q ∈ p.2, q.1 ∈ S) :
    (∑ t ∈ S, (adj.map (fun p => ((p.2.filter (fun q => q.1 = t)).map Prod.snd).sum)).sum)
      = (adj.map (fun p => (p.2.map Prod.snd).sum)).sum := by
  induction adj with
  | nil => simp
  | cons p rest ih =>
      simp only [List.map_cons, List.sum_cons]
      rw [Finset.sum_add_distrib,
        ih (fun p' hp' q hq => hS p' (List.mem_cons_of_mem p hp') q hq)]
      congr 1
      have h := sum_filter_key p.2 (id : ℕ → ℕ) S
        (fun q hq => hS p (List.mem_cons_self p rest) q hq)
      simpa using h

theorem sum_inDegree (adj : Adjacency) :
    (∑ t ∈ nodeFinset adj, inDegree adj t) = totalWeight adj := by
  unfold inDegree totalWeight
  exact sum_inDegree_aux adj (nodeFinset adj) (inner_keys_mem_nodeFinset adj)

theorem incr_sum (inner : List (String × ℕ)) (t : String) :
    ((incr inner t).map Prod.snd).sum = (inner.map Prod.snd).sum + 1 := by
  induction inner with
  | nil => simp [incr]
  | cons q rest ih =>
      obtain ⟨a, w⟩ := q
      by_cases h : a = t
      · simp [incr, h]
        omega
      · simp [incr, h, ih]
        omega

theorem totalWeight_addEdge (adj : Adjacency) (s t : String) :
    totalWeight (addEdge adj s t) = totalWeight adj + 1 := by
  induction adj with
  | nil => simp [addEdge, totalWeight]
  | cons p rest ih =>
      obtain ⟨a, inner⟩ := p
      by_cases h : a = s
      · simp [addEdge, h, totalWeight, incr_sum]
        omega
      · simp only [addEdge, if_neg h, totalWeight, List.map_cons, List.sum_cons] at ih ⊢
        omega

theorem totalWeight_build_network (edges : List (String × String))
    (h : ∀ e ∈ edges,
      (e.1 ≠ ("unknown") ∧ e.1 ≠ ("")) ∧ (e.2 ≠ ("unknown") ∧ e.2 ≠ ("")) ∧ e.1 ≠ e.2) :
    totalWeight (build_network edges) = edges.length := by
  suffices haux : ∀ (es : List (String × String)) (adj : Adjacency),
      (∀ e ∈ es,
        (e.1 ≠ ("unknown") ∧ e.1 ≠ ("")) ∧ (e.2 ≠ ("unknown") ∧ e.2 ≠ ("")) ∧ e.1 ≠ e.2) →
      totalWeight (es.foldl
        (fun adj e =>
          if (e.1 ≠ ("unknown") ∧ e.1 ≠ ("")) ∧ (e.2 ≠ ("unknown") ∧ e.2 ≠ ("")) ∧ e.1 ≠ e.2
          then addEdge adj e.1 e.2 else adj) adj)
        = totalWeight adj + es.length by
    have := haux edges [] h
    simpa [build_network, totalWeight] using this
  intro es
  induction es with
  | nil => intro adj _; simp
  | cons e rest ih =>
      intro adj hall
      simp only [List.foldl_cons]
      rw [if_pos (hall e (List.mem_cons_self e rest))]
      rw [ih _ (fun e' he' => hall e' (List.mem_cons_of_mem e he'))]
      rw [totalWeight_addEdge]
      simp only [List.length_cons]
      omega

theorem totalWeight_build_comment_network (edges : List (String × String))
    (h : ∀ e ∈ edges, e.1 ≠ ("unknown") ∧ e.2 ≠ ("unknown") ∧ e.1 ≠ e.2) :
    totalWeight (build_comment_network edges).1 = edges.length := by
  suffices haux : ∀ (es : List (String × String)) (st : Adjacency × List (String × String)),
      (∀ e ∈ es, e.1 ≠ ("unknown") ∧ e.2 ≠ ("unknown") ∧ e.1 ≠ e.2) →
      totalWeight ((es.foldl
        (fun st e =>
          if e.1 ≠ ("unknown") ∧ e.2 ≠ ("unknown") ∧ e.1 ≠ e.2
          then (addEdge st.1 e.1 e.2, st.2 ++ [e]) else st) st)).1
        = totalWeight st.1 + es.length by
    have := haux edges ([], []) h
    simpa [build_comment_network, totalWeight] using this
  intro es
  induction es with
  | nil => intro st _; simp
  | cons e rest ih =>
      intro st hall
      simp only [List.foldl_cons]
      rw [if_pos (hall e (List.mem_cons_self e rest))]
      rw [ih _ (fun e' he' => hall e' (List.mem_cons_of_mem e he'))]
      simp only [totalWeight_addEdge, List.length_cons]
      omega

/-- Claim C5: for every edge list with no self-loops and all identities
resolved (non-empty, not the "unknown" sentinel), the total out-weight over
all sources, the total in-weight over all targets, and the number of input
edges coincide — for the builder of rigorous_analysis.py and for the one of
network_stats.py alike. -/
theorem builder_weight_conservation (edges : List (String × String))
    (h : ∀ e ∈ edges,
      e.1 ≠ ("") ∧ e.1 ≠ ("unknown") ∧ e.2 ≠ ("") ∧ e.2 ≠ ("unknown") ∧ e.1 ≠ e.2) :
    ((∑ s ∈ nodeFinset (build_network edges), outDegree (build_network edges) s)
        = edges.length
      ∧ (∑ t ∈ nodeFinset (build_network edges), inDegree (build_network edges) t)
        = edges.length)
    ∧ ((∑ s ∈ nodeFinset (build_comment_network edges).1,
          outDegree (build_comment_network edges).1 s) = edges.length
      ∧ (∑ t ∈ nodeFinset (build_comment_network edges).1,
          inDegree (build_comment_network edges).1 t) = edges.length) := by
  have h1 : totalWeight (build_network edges) = edges.length :=
    totalWeight_build_network edges
      (fun e he => ⟨⟨(h e he).2.1, (h e he).1⟩, ⟨(h e he).2.2.2.1, (h e he).2.2.1⟩,
        (h e he).2.2.2.2⟩)
  have h2 : totalWeight (build_comment_network edges).1 = edges.length :=
    totalWeight_build_comment_network edges
      (fun e he => ⟨(h e he).2.1, (h e he).2.2.2.1, (h e he).2.2.2.2⟩)
  exact ⟨⟨by rw [sum_outDegree, h1], by rw [sum_inDegree, h1]⟩,
    ⟨by rw [sum_outDegree, h2], by rw [sum_inDegree, h2]⟩⟩

/-- Witness for C5 at the concrete resolved edge list [(A,B), (B,A), (C,B)]. -/
theorem builder_weight_conservation_witness :
    ((∑ s ∈ nodeFinset (build_network [(("A"), ("B")), (("B"), ("A")), (("C"), ("B"))]),
        outDegree (build_network [(("A"), ("B")), (("B"), ("A")), (("C"), ("B"))]) s) = 3
      ∧ (∑ t ∈ nodeFinset (build_network [(("A"), ("B")), (("B"), ("A")), (("C"), ("B"))]),
          inDegree (build_network [(("A"), ("B")), (("B"), ("A")), (("C"), ("B"))]) t) = 3)
    ∧ ((∑ s ∈ nodeFinset (build_comment_network
            [(("A"), ("B")), (("B"), ("A")), (("C"), ("B"))]).1,
        outDegree (build_comment_network
            [(("A"), ("B")), (("B"), ("A")), (("C"), ("B"))]).1 s) = 3
      ∧ (∑ t ∈ nodeFinset (build_comment_network
            [(("A"), ("B")), (("B"), ("A")), (("C"), ("B"))]).1,
          inDegree (build_comment_network
            [(("A"), ("B")), (("B"), ("A")), (("C"), ("B"))]).1 t) = 3) :=
  builder_weight_conservation [(("A"), ("B")), (("B"), ("A")), (("C"), ("B"))] (by decide)

/-! ## Claim C8: which edges the builders keep -/

theorem alookup_incr_self (inner : List (String × ℕ)) (t : String) :
    alookup (incr inner t) t = some ((alookup inner t).getD 0 + 1) := by
  induction inner with
  | nil => simp [incr, alookup]
  | cons q rest ih =>
      obtain ⟨a, w⟩ := q
      by_cases h : a = t
      · simp [incr, h, alookup]
      · simp [incr, h, alookup, ih]

theorem weightOf_addEdge (adj : Adjacency) (s t : String) :
    weightOf (addEdge adj s t) s t = weightOf adj s t + 1 := by
  have hmatch : ∀ o : Option ℕ, (match o with | none => 0 | some w => w) = o.getD 0 := by
    intro o
    cases o <;> rfl
  induction adj with
  | nil => simp [addEdge, weightOf, alookup]
  | cons p rest ih =>
      obtain ⟨a, inner⟩ := p
      by_cases h : a = s
      · simp only [addEdge, if_pos h, weightOf, alookup, h, if_pos]
        rw [alookup_incr_self]
        simp [hmatch]
      · simp only [addEdge, if_neg h, weightOf, alookup, if_neg h] at ih ⊢
        exact ih

/-- Counterexample to C8 as stated: network_stats.py's `build_comment_network`
keeps an edge whose source identity is the empty string, so "adds weight iff
both identities are non-empty, not unknown, and distinct" fails there. -/
theorem builder_filter_counterexample :
    ¬ (1 ≤ weightOf ((build_comment_network [(("", "B"))]).1) ("") ("B") ↔
        (("" : String) ≠ ("") ∧ ("" : String) ≠ ("unknown")
          ∧ ("B" : String) ≠ ("") ∧ ("B" : String) ≠ ("unknown")
          ∧ ("" : String) ≠ ("B"))) := by decide

/-- Claim C8 (amended): rigorous_analysis.py's `build_network` accumulates an
edge exactly when both identities are non-empty, differ from "unknown" and
from each other; network_stats.py's `build_comment_network` checks only the
"unknown" sentinel and self-loops (an empty identity passes its filter).
In both, an accepted edge increments the weight of (source, target) by one
and a rejected edge leaves the structure unchanged, with no error raised. -/
theorem builder_filter_behaviour (es : List (String × String)) (e : String × String) :
    (build_network (es ++ [e])
        = if (e.1 ≠ ("unknown") ∧ e.1 ≠ ("")) ∧ (e.2 ≠ ("unknown") ∧ e.2 ≠ ("")) ∧ e.1 ≠ e.2
          then addEdge (build_network es) e.1 e.2 else build_network es)
    ∧ ((build_comment_network (es ++ [e])).1
        = if e.1 ≠ ("unknown") ∧ e.2 ≠ ("unknown") ∧ e.1 ≠ e.2
          then addEdge (build_comment_network es).1 e.1 e.2
          else (build_comment_network es).1)
    ∧ (∀ adj : Adjacency, weightOf (addEdge adj e.1 e.2) e.1 e.2 = weightOf adj e.1 e.2 + 1) := by
  refine ⟨?_, ?_, fun adj => weightOf_addEdge adj e.1 e.2⟩
  · unfold build_network
    rw [List.foldl_append]
    rfl
  · unfold build_comment_network
    rw [List.foldl_append]
    simp only [List.foldl_cons, List.foldl_nil]
    by_cases h : e.1 ≠ ("unknown") ∧ e.2 ≠ ("unknown") ∧ e.1 ≠ e.2
    · rw [if_pos h, if_pos h]
    · rw [if_neg h, if_neg h]

/-! ## Claim C6: the even-length median of the degree summary -/

theorem pymedian_even (l : List ℕ) (he : l.length % 2 = 0) (hne : l ≠ []) :
    pymedian l
        = (((pysort l).getD (l.length / 2 - 1) 0 : ℚ)
            + ((pysort l).getD (l.length / 2) 0 : ℚ)) / 2
      ∧ (pymedian l = ((pysort l).getD (l.length / 2) 0 : ℚ)
          ↔ (pysort l).getD (l.length / 2 - 1) 0 = (pysort l).getD (l.length / 2) 0) := by
  have hlen : l.length ≠ 0 := fun h => hne (List.length_eq_zero.mp h)
  have hodd : ¬ l.length % 2 = 1 := by omega
  have hval : pymedian l
      = (((pysort l).getD (l.length / 2 - 1) 0 : ℚ)
          + ((pysort l).getD (l.length / 2) 0 : ℚ)) / 2 := by
    unfold pymedian
    simp only [pysort_length]
    rw [if_neg hlen, if_neg hodd]
  refine ⟨hval, ?_⟩
  rw [hval]
  set a := ((pysort l).getD (l.length / 2 - 1) 0 : ℕ)
  set b := ((pysort l).getD (l.length / 2) 0 : ℕ)
  constructor
  · intro h
    have h2 : (a : ℚ) + (b : ℚ) = 2 * (b : ℚ) := by
      have := (div_eq_iff (two_ne_zero (α := ℚ))).mp h
      linarith
    have : (a : ℚ) = (b : ℚ) := by linarith
    exact_mod_cast this
  · intro h
    rw [h]
    ring

/-- Counterexample to C6 as stated: on the adjacency built from A→B weight 1
and B→A weight 2, the out-degree vector is [1, 2] (even length) and
`compute_degree_stats` reports the averaged median 3/2, not the element at
index n/2 of the ascending sort (which is 2, the value `ddMedian` of
degree_distribution.py would print). -/
theorem degree_stats_median_counterexample :
    (outVals [(("A"), [(("B"), 1)]), (("B"), [(("A"), 2)])]).length % 2 = 0
    ∧ (compute_degree_stats [(("A"), [(("B"), 1)]), (("B"), [(("A"), 2)])]).out_degree_median
        ≠ ((ddMedian (outVals [(("A"), [(("B"), 1)]), (("B"), [(("A"), 2)])]) : ℕ) : ℚ) := by
  have hv : outVals [(("A"), [(("B"), 1)]), (("B"), [(("A"), 2)])] = [2, 1] := by decide
  have hm : (compute_degree_stats [(("A"), [(("B"), 1)]), (("B"), [(("A"), 2)])]).out_degree_median
      = pymedian (outVals [(("A"), [(("B"), 1)]), (("B"), [(("A"), 2)])]) := rfl
  have hd : ddMedian (outVals [(("A"), [(("B"), 1)]), (("B"), [(("A"), 2)])]) = 2 := by decide
  refine ⟨by decide, ?_⟩
  rw [hm, hd, hv]
  norm_num [pymedian, pysort, List.insertionSort, List.orderedInsert,
    List.getD_cons_zero, List.getD_cons_succ]

/-- Claim C6 (amended): for even-length degree vectors the medians reported
by `compute_degree_stats` are the average of the two middle elements of the
ascending sort (`statistics.median`), which agrees with the element at index
n/2 (`ddMedian`, the expression degree_distribution.py prints) exactly when
the two middle elements coincide. -/
theorem degree_stats_median_behaviour (adj : Adjacency)
    (ho1 : (outVals adj).length % 2 = 0) (ho2 : outVals adj ≠ [])
    (hi1 : (inVals adj).length % 2 = 0) (hi2 : inVals adj ≠ []) :
    ((compute_degree_stats adj).out_degree_median
        = (((pysort (outVals adj)).getD ((outVals adj).length / 2 - 1) 0 : ℚ)
            + ((pysort (outVals adj)).getD ((outVals adj).length / 2) 0 : ℚ)) / 2
      ∧ ((compute_degree_stats adj).out_degree_median
            = ((ddMedian (outVals adj) : ℕ) : ℚ)
          ↔ (pysort (outVals adj)).getD ((outVals adj).length / 2 - 1) 0
            = (pysort (outVals adj)).getD ((outVals adj).length / 2) 0))
    ∧ ((compute_degree_stats adj).in_degree_median
        = (((pysort (inVals adj)).getD ((inVals adj).length / 2 - 1) 0 : ℚ)
            + ((pysort (inVals adj)).getD ((inVals adj).length / 2) 0 : ℚ)) / 2
      ∧ ((compute_degree_stats adj).in_degree_median
            = ((ddMedian (inVals adj) : ℕ) : ℚ)
          ↔ (pysort (inVals adj)).getD ((inVals adj).length / 2 - 1) 0
            = (pysort (inVals adj)).getD ((inVals adj).length / 2) 0)) := by
  have hout := pymedian_even (outVals adj) ho1 ho2
  have hin := pymedian_even (inVals adj) hi1 hi2
  have e1 : (compute_degree_stats adj).out_degree_median = pymedian (outVals adj) := rfl
  have e2 : (compute_degree_stats adj).in_degree_median = pymedian (inVals adj) := rfl
  have e3 : ∀ l : List ℕ, ddMedian l = (pysort l).getD (l.length / 2) 0 := fun _ => rfl
  rw [e1, e2, e3, e3]
  exact ⟨hout, hin⟩

/-- Witness for the amended C6 at the adjacency with out-degree vector [1, 2]:
the summary median is 3/2 there. -/
theorem degree_stats_median_behaviour_witness :
    (compute_degree_stats [(("A"), [(("B"), 1)]), (("B"), [(("A"), 2)])]).out_degree_median
      = 3 / 2 := by
  have h := (degree_stats_median_behaviour [(("A"), [(("B"), 1)]), (("B"), [(("A"), 2)])]
    (by decide) (by decide) (by decide) (by decide)).1.1
  have hv : outVals [(("A"), [(("B"), 1)]), (("B"), [(("A"), 2)])] = [2, 1] := by decide
  rw [hv] at h
  rw [h]
  norm_num [pysort, List.insertionSort, List.orderedInsert,
    List.getD_cons_zero, List.getD_cons_succ]

/-! ## Claims C4 and C9: the bootstrap procedure -/

/-- Claim C9: a bootstrap sample count <= 0 makes `bootstrap_reciprocity`
raise (an IndexError at the confidence-bound lookup) before any resample is
drawn: the list of performed resamples is empty and no partial result is
produced, for every randomness stream. -/
theorem bootstrap_nonpositive_count (adj : Adjacency) (N : ℤ) (g : ℕ → ℕ)
    (hN : N ≤ 0) :
    bootstrap_reciprocity adj N g = .error PyErr.indexError
    ∧ bootSamples adj N g = [] := by
  have h0 : N.toNat = 0 := Int.toNat_eq_zero.mpr hN
  have hs : bootSamples adj N g = [] := by
    unfold bootSamples
    rw [h0]
    rfl
  have hr : bootRecips adj N g = [] := by
    unfold bootRecips
    rw [hs]
    rfl
  have hss : bootSorted adj N g = [] := by
    unfold bootSorted
    rw [hr]
    rfl
  refine ⟨?_, hs⟩
  unfold bootstrap_reciprocity
  rw [hss, h0]
  rfl

/-- Witness for C9 at the empty adjacency with sample count 0. -/
theorem bootstrap_nonpositive_count_witness :
    bootstrap_reciprocity [] 0 (fun _ => 0) = .error PyErr.indexError
    ∧ bootSamples [] 0 (fun _ => 0) = [] :=
  bootstrap_nonpositive_count [] 0 (fun _ => 0) (by decide)

/-- Claim C4: with at least one edge occurrence and N >= 1, the bootstrap
performs exactly N resamples, each drawing |edges| occurrences with
replacement from the expanded edge multiset; each reciprocity value is
recomputed on the adjacency rebuilt from its resample; and the returned 95%
confidence interval is the pair of entries at zero-based indices
floor(0.025 N) and floor(0.975 N) of the ascending sort of the N values. -/
theorem bootstrap_spec (adj : Adjacency) (N : ℤ) (g : ℕ → ℕ) (hN : 1 ≤ N)
    (he : edgesOf adj ≠ []) :
    (bootSamples adj N g).length = N.toNat
    ∧ (∀ s ∈ bootSamples adj N g,
        s.length = (edgesOf adj).length ∧ ∀ e ∈ s, e ∈ edgesOf adj)
    ∧ bootRecips adj N g
        = (bootSamples adj N g).map (fun s => (compute_dyadic_reciprocity (rebuildAdj s)).1)
    ∧ List.Sorted (fun a b : ℚ => a ≤ b) (bootSorted adj N g)
    ∧ (bootSorted adj N g).Perm (bootRecips adj N g)
    ∧ bootstrap_reciprocity adj N g
        = .ok ((bootSorted adj N g).getD (25 * N.toNat / 1000) 0,
               (bootSorted adj N g).getD (975 * N.toNat / 1000) 0) := by
  have hlen0 : (edgesOf adj).length ≠ 0 := fun h => he (List.length_eq_zero.mp h)
  have hlen1 : (bootSamples adj N g).length = N.toNat := by
    unfold bootSamples
    rw [List.length_map, List.length_range]
  have hmem : ∀ s ∈ bootSamples adj N g,
      s.length = (edgesOf adj).length ∧ ∀ e ∈ s, e ∈ edgesOf adj := by
    intro s hs
    unfold bootSamples at hs
    rw [List.mem_map] at hs
    obtain ⟨t, _, rfl⟩ := hs
    constructor
    · unfold pyChoices
      rw [List.length_map, List.length_range]
    · intro e hememb
      unfold pyChoices at hememb
      rw [List.mem_map] at hememb
      obtain ⟨j, _, rfl⟩ := hememb
      have hidx : g (t * (edgesOf adj).length + j) % (edgesOf adj).length
          < (edgesOf adj).length := Nat.mod_lt _ (Nat.pos_of_ne_zero hlen0)
      rw [List.getD_eq_getElem _ _ hidx]
      exact List.getElem_mem hidx
  have hrlen : (bootRecips adj N g).length = N.toNat := by
    unfold bootRecips
    rw [List.length_map, hlen1]
  have hslen : (bootSorted adj N g).length = N.toNat := by
    unfold bootSorted
    rw [List.length_insertionSort, hrlen]
  have hM : 1 ≤ N.toNat := by omega
  have hlow : 25 * N.toNat / 1000 < (bootSorted adj N g).length := by
    rw [hslen]
    rw [Nat.div_lt_iff_lt_mul (by norm_num)]
    omega
  have hhigh : 975 * N.toNat / 1000 < (bootSorted adj N g).length := by
    rw [hslen]
    rw [Nat.div_lt_iff_lt_mul (by norm_num)]
    omega
  have h1 : pyGetElem (bootSorted adj N g) (25 * N.toNat / 1000)
      = .ok ((bootSorted adj N g).getD (25 * N.toNat / 1000) 0) := by
    unfold pyGetElem
    rw [if_pos hlow]
  have h2 : pyGetElem (bootSorted adj N g) (975 * N.toNat / 1000)
      = .ok ((bootSorted adj N g).getD (975 * N.toNat / 1000) 0) := by
    unfold pyGetElem
    rw [if_pos hhigh]
  refine ⟨hlen1, hmem, rfl, List.sorted_insertionSort _ _, List.perm_insertionSort _ _,
    ?_⟩
  unfold bootstrap_reciprocity
  rw [h1, h2]
  rfl

/-- Witness for C4 at a one-edge adjacency with N = 1. -/
theorem bootstrap_spec_witness :
    (bootSamples [(("A"), [(("B"), 1)])] 1 (fun _ => 0)).length = (1 : ℤ).toNat
    ∧ (∀ s ∈ bootSamples [(("A"), [(("B"), 1)])] 1 (fun _ => 0),
        s.length = (edgesOf [(("A"), [(("B"), 1)])]).length
          ∧ ∀ e ∈ s, e ∈ edgesOf [(("A"), [(("B"), 1)])])
    ∧ bootRecips [(("A"), [(("B"), 1)])] 1 (fun _ => 0)
        = (bootSamples [(("A"), [(("B"), 1)])] 1 (fun _ => 0)).map
            (fun s => (compute_dyadic_reciprocity (rebuildAdj s)).1)
    ∧ List.Sorted (fun a b : ℚ => a ≤ b) (bootSorted [(("A"), [(("B"), 1)])] 1 (fun _ => 0))
    ∧ (bootSorted [(("A"), [(("B"), 1)])] 1 (fun _ => 0)).Perm
        (bootRecips [(("A"), [(("B"), 1)])] 1 (fun _ => 0))
    ∧ bootstrap_reciprocity [(("A"), [(("B"), 1)])] 1 (fun _ => 0)
        = .ok ((bootSorted [(("A"), [(("B"), 1)])] 1 (fun _ => 0)).getD
                (25 * (1 : ℤ).toNat / 1000) 0,
               (bootSorted [(("A"), [(("B"), 1)])] 1 (fun _ => 0)).getD
                (975 * (1 : ℤ).toNat / 1000) 0) :=
  bootstrap_spec [(("A"), [(("B"), 1)])] 1 (fun _ => 0) (by decide) (by decide)

/-! ## Claim C3: dyadic reciprocity counts unordered pairs -/

theorem uint32_lt_iff (a b : UInt32) : a < b ↔ a.toNat < b.toNat := by
  rw [UInt32.lt_def, BitVec.lt_def]
  rfl

theorem uint32_lt_asymm {a b : UInt32} (h : a < b) : ¬ b < a := by
  rw [uint32_lt_iff] at *
  omega

theorem uint32_lt_irrefl (a : UInt32) : ¬ a < a := by
  rw [uint32_lt_iff]
  omega

theorem uint32_trichotomy (a b : UInt32) : a < b ∨ a = b ∨ b < a := by
  rcases Nat.lt_trichotomy a.toNat b.toNat with h | h | h
  · left
    exact (uint32_lt_iff a b).mpr h
  · right
    left
    exact UInt32.ext h
  · right
    right
    exact (uint32_lt_iff b a).mpr h

theorem charListLt_irrefl (l : List Char) : charListLt l l = false := by
  induction l with
  | nil => rfl
  | cons a as ih => simp [charListLt, ih]

theorem charListLt_asymm {x y : List Char} (h : charListLt x y = true) :
    charListLt y x = false := by
  induction x generalizing y with
  | nil =>
      cases y with
      | nil => simp [charListLt] at h
      | cons b bs => rfl
  | cons a as ih =>
      cases y with
      | nil => simp [charListLt] at h
      | cons b bs =>
          simp only [charListLt] at h ⊢
          by_cases h1 : a.val < b.val
          · have h2 : ¬ b.val < a.val := uint32_lt_asymm h1
            have h3 : ¬ b.val = a.val := fun e => absurd h1 (by rw [e]; exact uint32_lt_irrefl _)
            simp [h2, h3]
          · by_cases h2 : a.val = b.val
            · rw [if_neg h1, if_pos h2] at h
              have h3 : ¬ b.val < a.val := by rw [h2]; exact uint32_lt_irrefl _
              have h4 : b.val = a.val := h2.symm
              simp [h3, h4, ih h]
            · rw [if_neg h1, if_neg h2] at h
              exact absurd h (by simp)

theorem charListLt_connex {x y : List Char} (h : x ≠ y) :
    charListLt x y = true ∨ charListLt y x = true := by
  induction x generalizing y with
  | nil =>
      cases y with
      | nil => exact absurd rfl h
      | cons b bs => left; rfl
  | cons a as ih =>
      cases y with
      | nil => right; rfl
      | cons b bs =>
          rcases uint32_trichotomy a.val b.val with h1 | h1 | h1
          · left; simp [charListLt, h1]
          · have hab : a = b := Char.ext h1
            subst hab
            have hne : as ≠ bs := fun e => h (by rw [e])
            rcases ih hne with h2 | h2
            · left; simp [charListLt, h2]
            · right; simp [charListLt, h2]
          · right; simp [charListLt, h1]

theorem strLt_irrefl (a : String) : strLt a a = false := charListLt_irrefl a.data

theorem strLt_asymm {a b : String} (h : strLt a b = true) : strLt b a = false :=
  charListLt_asymm h

theorem strLt_connex {a b : String} (h : a ≠ b) :
    strLt a b = true ∨ strLt b a = true := by
  rcases @charListLt_connex a.data b.data (fun e => h (congrArg String.mk e)) with
    h1 | h1
  · left; exact h1
  · right; exact h1

theorem strLt_ne {a b : String} (h : strLt a b = true) : a ≠ b := by
  intro e
  rw [e, strLt_irrefl] at h
  exact absurd h (by simp)

theorem sortPair_cases (a b : String) (h : a ≠ b) :
    (sortPair a b = (a, b) ∧ strLt a b = true)
    ∨ (sortPair a b = (b, a) ∧ strLt b a = true) := by
  unfold sortPair
  by_cases hba : strLt b a = true
  · right
    rw [if_pos hba]
    exact ⟨rfl, hba⟩
  · left
    rcases strLt_connex h with h1 | h1
    · rw [if_neg hba]
      exact ⟨rfl, h1⟩
    · exact absurd h1 hba

theorem sortPair_of_lt {u v : String} (h : strLt u v = true) :
    sortPair u v = (u, v) ∧ sortPair v u = (u, v) := by
  constructor
  · unfold sortPair
    rw [if_neg (by rw [strLt_asymm h]; simp)]
  · unfold sortPair
    rw [if_pos h]

theorem alookup_isSome {β : Type} (l : List (String × β)) (b : String) :
    (alookup l b).isSome = true ↔ ∃ q ∈ l, q.1 = b := by
  induction l with
  | nil => simp [alookup]
  | cons q rest ih =>
      by_cases h : q.1 = b
      · simp [alookup, h]
      · simp only [alookup, if_neg h, ih, List.mem_cons]
        constructor
        · rintro ⟨q', hq', hqb⟩
          exact ⟨q', Or.inr hq', hqb⟩
        · rintro ⟨q', hq' | hq', hqb⟩
          · exact absurd (hq' ▸ hqb) h
          · exact ⟨q', hq', hqb⟩

theorem containsEdge_iff (adj : Adjacency) (hnd : (adj.map Prod.fst).Nodup)
    (a b : String) : containsEdge adj a b = true ↔ hasDirectedEdge adj a b := by
  induction adj with
  | nil => simp [containsEdge, alookup, hasDirectedEdge]
  | cons p rest ih =>
      rw [List.map_cons, List.nodup_cons] at hnd
      obtain ⟨hp1, hp2⟩ := hnd
      by_cases h : p.1 = a
      · have hce : containsEdge (p :: rest) a b = (alookup p.2 b).isSome := by
          simp [containsEdge, alookup, h]
        have hrest : ¬ hasDirectedEdge rest a b := by
          rintro ⟨p', hp', hpa, -⟩
          apply hp1
          have : p'.1 ∈ rest.map Prod.fst := List.mem_map_of_mem Prod.fst hp'
          rwa [hpa, ← h] at this
        rw [hce]
        constructor
        · intro hsome
          obtain ⟨q, hq, hqb⟩ := (alookup_isSome p.2 b).mp hsome
          exact ⟨p, List.mem_cons_self p rest, h, q, hq, hqb⟩
        · rintro ⟨p', hp', hpa, q, hq, hqb⟩
          rcases List.mem_cons.mp hp' with rfl | hmem
          · exact (alookup_isSome p'.2 b).mpr ⟨q, hq, hqb⟩
          · exact absurd ⟨p', hmem, hpa, q, hq, hqb⟩ hrest
      · have hce : containsEdge (p :: rest) a b = containsEdge rest a b := by
          simp [containsEdge, alookup, h]
        rw [hce, ih hp2]
        constructor
        · rintro ⟨p', hp', hpa, hq⟩
          exact ⟨p', List.mem_cons_of_mem p hp', hpa, hq⟩
        · rintro ⟨p', hp', hpa, hq⟩
          rcases List.mem_cons.mp hp' with rfl | hmem
          · exact absurd hpa h
          · exact ⟨p', hmem, hpa, hq⟩

theorem mem_rawPairs (adj : Adjacency) (x : String × String) :
    x ∈ rawPairs adj ↔ ∃ p ∈ adj, ∃ q ∈ p.2, x = sortPair p.1 q.1 := by
  simp [rawPairs, List.mem_flatMap, List.mem_map, eq_comm]

theorem rawPairs_toFinset (adj : Adjacency) (hwf : WFAdj adj) :
    (rawPairs adj).toFinset = connectedPairs adj := by
  apply Finset.ext
  intro x
  rw [List.mem_toFinset, mem_rawPairs]
  unfold connectedPairs
  rw [Finset.mem_filter, Finset.mem_product]
  constructor
  · rintro ⟨p, hp, q, hq, rfl⟩
    have hne : p.1 ≠ q.1 := (hwf.2.2 p hp q hq).1
    have hmem1 : p.1 ∈ nodeFinset adj := keys_mem_nodeFinset adj p hp
    have hmem2 : q.1 ∈ nodeFinset adj := inner_keys_mem_nodeFinset adj p hp q hq
    have hedge : hasDirectedEdge adj p.1 q.1 := ⟨p, hp, rfl, q, hq, rfl⟩
    rcases sortPair_cases p.1 q.1 hne with ⟨he, hlt⟩ | ⟨he, hlt⟩
    · rw [he]
      exact ⟨⟨hmem1, hmem2⟩, hlt, Or.inl hedge⟩
    · rw [he]
      exact ⟨⟨hmem2, hmem1⟩, hlt, Or.inr hedge⟩
  · rintro ⟨⟨hm1, hm2⟩, hlt, hedge | hedge⟩
    · obtain ⟨p, hp, hpa, q, hq, hqb⟩ := hedge
      refine ⟨p, hp, q, hq, ?_⟩
      rw [hpa, hqb, (sortPair_of_lt hlt).1]
    · obtain ⟨p, hp, hpa, q, hq, hqb⟩ := hedge
      refine ⟨p, hp, q, hq, ?_⟩
      rw [hpa, hqb, (sortPair_of_lt hlt).2]

theorem mutualPairs_toFinset (adj : Adjacency) (hwf : WFAdj adj) :
    ((rawPairs adj).dedup.filter
        (fun p => containsEdge adj p.1 p.2 && containsEdge adj p.2 p.1)).toFinset
      = mutualPairs adj := by
  apply Finset.ext
  intro x
  rw [List.mem_toFinset, List.mem_filter, List.mem_dedup]
  have hcon : x ∈ rawPairs adj ↔ x ∈ connectedPairs adj := by
    rw [← rawPairs_toFinset adj hwf, List.mem_toFinset]
  rw [hcon]
  unfold mutualPairs
  rw [Finset.mem_filter, Finset.mem_product]
  constructor
  · rintro ⟨hxconn, hboth⟩
    unfold connectedPairs at hxconn
    rw [Finset.mem_filter, Finset.mem_product] at hxconn
    obtain ⟨⟨h1, h2⟩, hlt, -⟩ := hxconn
    rw [Bool.and_eq_true] at hboth
    exact ⟨⟨h1, h2⟩, hlt, (containsEdge_iff adj hwf.1 _ _).mp hboth.1,
      (containsEdge_iff adj hwf.1 _ _).mp hboth.2⟩
  · rintro ⟨⟨h1, h2⟩, hlt, he1, he2⟩
    constructor
    · unfold connectedPairs
      rw [Finset.mem_filter, Finset.mem_product]
      exact ⟨⟨h1, h2⟩, hlt, Or.inl he1⟩
    · rw [Bool.and_eq_true]
      exact ⟨(containsEdge_iff adj hwf.1 _ _).mpr he1,
        (containsEdge_iff adj hwf.1 _ _).mpr he2⟩

theorem reciprocity_counts (adj : Adjacency) (hwf : WFAdj adj) :
    (rawPairs adj).dedup.length = (connectedPairs adj).card
    ∧ ((rawPairs adj).dedup.filter
        (fun p => containsEdge adj p.1 p.2 && containsEdge adj p.2 p.1)).length
      = (mutualPairs adj).card := by
  constructor
  · rw [← rawPairs_toFinset adj hwf, List.card_toFinset]
  · rw [← mutualPairs_toFinset adj hwf, List.card_toFinset]
    have hnd : ((rawPairs adj).dedup.filter
        (fun p => containsEdge adj p.1 p.2 && containsEdge adj p.2 p.1)).Nodup :=
      (List.nodup_dedup _).filter _
    rw [List.Nodup.dedup hnd]

/-- Claim C3: dyadic reciprocity is the number of mutual unordered pairs over
the number of connected unordered pairs (0 when there are none), and on the
graph built from the edges (A,B), (B,A), (C,D) it equals 1/2. -/
theorem dyadic_reciprocity_spec (adj : Adjacency) (hwf : WFAdj adj) :
    (compute_dyadic_reciprocity adj).2.1 = (connectedPairs adj).card
    ∧ (compute_dyadic_reciprocity adj).2.2 = (mutualPairs adj).card
    ∧ (compute_dyadic_reciprocity adj).1
        = ((mutualPairs adj).card : ℚ) / ((connectedPairs adj).card : ℚ)
    ∧ ((connectedPairs adj).card = 0 → (compute_dyadic_reciprocity adj).1 = 0)
    ∧ (compute_dyadic_reciprocity
        (build_network [(("A"), ("B")), (("B"), ("A")), (("C"), ("D"))])).1 = 1 / 2 := by
  obtain ⟨hc1, hc2⟩ := reciprocity_counts adj hwf
  have hsub : mutualPairs adj ⊆ connectedPairs adj := by
    intro x hx
    unfold mutualPairs at hx
    unfold connectedPairs
    rw [Finset.mem_filter] at hx ⊢
    exact ⟨hx.1, hx.2.1, Or.inl hx.2.2.1⟩
  have hdef : (compute_dyadic_reciprocity adj).1
      = (if ((rawPairs adj).dedup.length ≠ 0) then
          ((((rawPairs adj).dedup.filter
              (fun p => containsEdge adj p.1 p.2 && containsEdge adj p.2 p.1)).length : ℚ)
            / (((rawPairs adj).dedup.length : ℕ) : ℚ))
        else 0) := rfl
  have hratio : (compute_dyadic_reciprocity adj).1
      = ((mutualPairs adj).card : ℚ) / ((connectedPairs adj).card : ℚ) := by
    rw [hdef]
    by_cases h : (rawPairs adj).dedup.length ≠ 0
    · rw [if_pos h, hc1, hc2]
    · rw [if_neg h]
      push_neg at h
      rw [hc1] at h
      have hm0 : (mutualPairs adj).card = 0 :=
        Nat.eq_zero_of_le_zero (le_trans (Finset.card_le_card hsub) (le_of_eq h))
      rw [h, hm0]
      norm_num
  refine ⟨hc1, hc2, hratio, ?_, ?_⟩
  · intro h0
    have hm0 : (mutualPairs adj).card = 0 :=
      Nat.eq_zero_of_le_zero (le_trans (Finset.card_le_card hsub) (le_of_eq h0))
    rw [hratio, h0, hm0]
    norm_num
  · have hpl : (rawPairs
        (build_network [(("A"), ("B")), (("B"), ("A")), (("C"), ("D"))])).dedup.length = 2 := by
      decide
    have hml : ((rawPairs
        (build_network [(("A"), ("B")), (("B"), ("A")), (("C"), ("D"))])).dedup.filter
          (fun p => containsEdge
              (build_network [(("A"), ("B")), (("B"), ("A")), (("C"), ("D"))]) p.1 p.2
            && containsEdge
              (build_network [(("A"), ("B")), (("B"), ("A")), (("C"), ("D"))]) p.2 p.1)).length
        = 1 := by
      decide
    have hdef2 : (compute_dyadic_reciprocity
        (build_network [(("A"), ("B")), (("B"), ("A")), (("C"), ("D"))])).1
        = (if ((rawPairs
              (build_network [(("A"), ("B")), (("B"), ("A")), (("C"), ("D"))])).dedup.length ≠ 0)
          then
            ((((rawPairs
                (build_network [(("A"), ("B")), (("B"), ("A")), (("C"), ("D"))])).dedup.filter
                (fun p => containsEdge
                    (build_network [(("A"), ("B")), (("B"), ("A")), (("C"), ("D"))]) p.1 p.2
                  && containsEdge
                    (build_network [(("A"), ("B")), (("B"), ("A")), (("C"), ("D"))]) p.2 p.1)).length : ℚ)
              / (((rawPairs
                  (build_network [(("A"), ("B")), (("B"), ("A")), (("C"), ("D"))])).dedup.length : ℕ) : ℚ))
          else 0) := rfl
    rw [hdef2, hpl, hml]
    norm_num

/-- Witness for C3: the reciprocity of the graph built from
(A,B), (B,A), (C,D) is 1/2. -/
theorem dyadic_reciprocity_spec_witness :
    (compute_dyadic_reciprocity
        (build_network [(("A"), ("B")), (("B"), ("A")), (("C"), ("D"))])).1 = 1 / 2 :=
  (dyadic_reciprocity_spec
    (build_network [(("A"), ("B")), (("B"), ("A")), (("C"), ("D"))]) (by decide)).2.2.2.2

/-! ## Claim C2: the KS statistic is the maximum absolute CDF deviation -/

theorem le_foldl_max (l : List ℝ) (a : ℝ) : a ≤ l.foldl max a := by
  induction l generalizing a with
  | nil => exact le_refl a
  | cons x xs ih => exact le_trans (le_max_left a x) (ih (max a x))

theorem mem_le_foldl_max {x : ℝ} : ∀ (l : List ℝ) (a : ℝ), x ∈ l → x ≤ l.foldl max a := by
  intro l
  induction l with
  | nil => intro a h; exact absurd h (List.not_mem_nil x)
  | cons y ys ih =>
      intro a h
      rcases List.mem_cons.mp h with rfl | hm
      · exact le_trans (le_max_right a x) (le_foldl_max ys (max a x))
      · exact ih (max a y) hm

theorem foldl_max_le {l : List ℝ} {a b : ℝ} (h1 : a ≤ b) (h2 : ∀ x ∈ l, x ≤ b) :
    l.foldl max a ≤ b := by
  induction l generalizing a with
  | nil => exact h1
  | cons x xs ih =>
      exact ih (max_le h1 (h2 x (List.mem_cons_self x xs)))
        (fun y hy => h2 y (List.mem_cons_of_mem x hy))

theorem foldl_max_enum_eq_sup (l : List ℕ) (F : ℕ × ℕ → ℝ) (hne : l ≠ [])
    (hpos : ∀ p, 0 ≤ F p) :
    l.enum.foldl (fun maxd p => max maxd (F p)) 0
      = Finset.sup' (Finset.range l.length)
          (Finset.nonempty_range_iff.mpr (fun h0 => hne (List.length_eq_zero.mp h0)))
          (fun i => F (i, l.getD i 0)) := by
  have hn : l.length ≠ 0 := fun h0 => hne (List.length_eq_zero.mp h0)
  rw [show l.enum.foldl (fun maxd p => max maxd (F p)) 0 = (l.enum.map F).foldl max 0 from
    (List.foldl_map F max l.enum 0).symm]
  apply le_antisymm
  · apply foldl_max_le
    · refine le_trans (hpos (0, l.getD 0 0)) ?_
      exact Finset.le_sup' (fun i => F (i, l.getD i 0))
        (Finset.mem_range.mpr (Nat.pos_of_ne_zero hn))
    · intro x hx
      obtain ⟨p, hp, rfl⟩ := List.mem_map.mp hx
      obtain ⟨i, v⟩ := p
      obtain ⟨-, h2, h3⟩ := List.mem_enumFrom hp
      have h2' : i < l.length := by omega
      have hgd : l.getD i 0 = v := by
        rw [List.getD_eq_getElem l 0 h2']
        exact h3.symm
      have heq : F (i, v) = F (i, l.getD i 0) := by rw [hgd]
      exact heq.trans_le
        (Finset.le_sup' (fun j => F (j, l.getD j 0)) (Finset.mem_range.mpr h2'))
  · apply Finset.sup'_le
    intro i hi
    have hi' : i < l.length := Finset.mem_range.mp hi
    have hb : i < l.enum.length := by rw [List.enum_length]; exact hi'
    have hmem : (i, l[i]) ∈ l.enum := by
      rw [← List.getElem_enum l i hb]
      exact List.getElem_mem hb
    have hgd : l.getD i 0 = l[i] := List.getD_eq_getElem l 0 hi'
    rw [hgd]
    exact mem_le_foldl_max (List.map F l.enum) 0 (List.mem_map_of_mem F hmem)

theorem sortedTail_ne_nil {degrees : List ℕ} {kmin : ℕ} (h : ∃ k ∈ degrees, kmin ≤ k) :
    sortedTail degrees kmin ≠ [] := by
  obtain ⟨k, hk, hge⟩ := h
  have h1 : k ∈ tailValues degrees kmin := List.mem_filter.mpr ⟨hk, by simpa using hge⟩
  have h2 : k ∈ sortedTail degrees kmin :=
    ((List.perm_insertionSort _ _).mem_iff).mpr h1
  intro e
  rw [e] at h2
  exact absurd h2 (List.not_mem_nil k)

/-- Claim C2: when at least one degree value reaches the cutoff, the KS
statistic computed by `power_law_ks_test` is exactly the maximum over indices
i into the ascending sort s of the absolute difference between the empirical
CDF (i+1)/n and the theoretical CDF 1 - (s[i] / k_min)^(1 - alpha). -/
theorem ks_statistic_is_max_deviation (degrees : List ℕ) (alpha : ℝ) (kmin : ℕ)
    (h : ∃ k ∈ degrees, kmin ≤ k) :
    power_law_ks_test degrees alpha kmin
      = Finset.sup' (Finset.range (sortedTail degrees kmin).length)
          (Finset.nonempty_range_iff.mpr
            (fun h0 => sortedTail_ne_nil h (List.length_eq_zero.mp h0)))
          (fun i =>
            |((i : ℝ) + 1) / ((sortedTail degrees kmin).length : ℝ)
              - (1 - (((sortedTail degrees kmin).getD i 0 : ℝ) / (kmin : ℝ))
                  ^ ((1 : ℝ) - alpha))|) := by
  have hne := sortedTail_ne_nil h
  unfold power_law_ks_test
  rw [if_neg hne]
  exact foldl_max_enum_eq_sup (sortedTail degrees kmin)
    (fun p => |((p.1 : ℝ) + 1) / ((sortedTail degrees kmin).length : ℝ)
        - theoreticalCdf alpha kmin p.2|)
    hne (fun p => abs_nonneg _)

/-- Witness for C2 on the degree vector [1] with alpha = 2, k_min = 1. -/
theorem ks_statistic_is_max_deviation_witness :
    power_law_ks_test [1] 2 1
      = Finset.sup' (Finset.range (sortedTail [1] 1).length)
          (Finset.nonempty_range_iff.mpr
            (fun h0 => sortedTail_ne_nil ⟨1, by decide, by decide⟩
              (List.length_eq_zero.mp h0)))
          (fun i =>
            |((i : ℝ) + 1) / ((sortedTail [1] 1).length : ℝ)
              - (1 - (((sortedTail [1] 1).getD i 0 : ℝ) / ((1 : ℕ) : ℝ))
                  ^ ((1 : ℝ) - 2))|) :=
  ks_statistic_is_max_deviation [1] 2 1 ⟨1, by decide, by decide⟩

/-! ## Claim C1: the k_min search of the power-law fitter -/

theorem fitStep_skip {degrees : List ℕ} {kmin : ℕ} (st : Option (ℕ × ℝ × ℝ))
    (h : fitSkipped degrees kmin) : fitStep degrees st kmin = st := by
  unfold fitStep
  rcases h with h | h
  · rw [if_pos h]
  · by_cases h1 : (tailValues degrees kmin).length < 50
    · rw [if_pos h1]
    · rw [if_neg h1, if_pos h]

theorem fitStep_valid_none {degrees : List ℕ} {kmin : ℕ} (h : ¬ fitSkipped degrees kmin) :
    fitStep degrees none kmin
      = some (kmin, mleAlpha degrees kmin, ksOf degrees kmin) := by
  unfold fitSkipped at h
  push_neg at h
  unfold fitStep
  rw [if_neg (not_lt.mpr h.1), if_neg (not_le.mpr h.2)]
  rfl

theorem fitStep_valid_some {degrees : List ℕ} {kmin : ℕ} (h : ¬ fitSkipped degrees kmin)
    (bk : ℕ) (ba bks : ℝ) :
    fitStep degrees (some (bk, ba, bks)) kmin
      = if ksOf degrees kmin < bks
        then some (kmin, mleAlpha degrees kmin, ksOf degrees kmin)
        else some (bk, ba, bks) := by
  unfold fitSkipped at h
  push_neg at h
  unfold fitStep
  rw [if_neg (not_lt.mpr h.1), if_neg (not_le.mpr h.2)]
  rfl

theorem fit_foldl_some_ne_none (degrees : List ℕ) :
    ∀ (l : List ℕ) (x : ℕ × ℝ × ℝ), l.foldl (fitStep degrees) (some x) ≠ none := by
  intro l
  induction l with
  | nil => intro x; simp
  | cons c rest ih =>
      intro x
      rw [List.foldl_cons]
      by_cases h : fitSkipped degrees c
      · rw [fitStep_skip _ h]
        exact ih x
      · obtain ⟨bk, ba, bks⟩ := x
        rw [fitStep_valid_some h bk ba bks]
        by_cases hlt : ksOf degrees c < bks
        · rw [if_pos hlt]
          exact ih _
        · rw [if_neg hlt]
          exact ih _

theorem fit_foldl_none_iff (degrees : List ℕ) :
    ∀ (l : List ℕ) (st : Option (ℕ × ℝ × ℝ)),
      l.foldl (fitStep degrees) st = none
        ↔ st = none ∧ ∀ k ∈ l, fitSkipped degrees k := by
  intro l
  induction l with
  | nil => intro st; simp
  | cons c rest ih =>
      intro st
      rw [List.foldl_cons]
      by_cases hc : fitSkipped degrees c
      · rw [fitStep_skip st hc, ih st]
        constructor
        · rintro ⟨h1, h2⟩
          refine ⟨h1, fun k hk => ?_⟩
          rcases List.mem_cons.mp hk with rfl | hm
          · exact hc
          · exact h2 k hm
        · rintro ⟨h1, h2⟩
          exact ⟨h1, fun k hk => h2 k (List.mem_cons_of_mem c hk)⟩
      · cases st with
        | none =>
            rw [fitStep_valid_none hc]
            constructor
            · intro hcontra
              exact absurd hcontra (fit_foldl_some_ne_none degrees rest _)
            · rintro ⟨-, h2⟩
              exact absurd (h2 c (List.mem_cons_self c rest)) hc
        | some trip =>
            obtain ⟨bk, ba, bks⟩ := trip
            rw [fitStep_valid_some hc bk ba bks]
            have hnone : ∀ y : ℕ × ℝ × ℝ,
                rest.foldl (fitStep degrees) (some y) = none ↔ False := by
              intro y
              simp only [iff_false]
              exact fit_foldl_some_ne_none degrees rest y
            constructor
            · intro hcontra
              by_cases hlt : ksOf degrees c < bks
              · rw [if_pos hlt] at hcontra
                exact absurd hcontra (fit_foldl_some_ne_none degrees rest _)
              · rw [if_neg hlt] at hcontra
                exact absurd hcontra (fit_foldl_some_ne_none degrees rest _)
            · rintro ⟨-, h2⟩
              exact absurd (h2 c (List.mem_cons_self c rest)) hc

theorem fit_foldl_some_char (degrees : List ℕ) :
    ∀ (l : List ℕ) (st : Option (ℕ × ℝ × ℝ)) (k : ℕ) (a ks : ℝ),
      l.foldl (fitStep degrees) st = some (k, a, ks) →
      (st = some (k, a, ks)
        ∨ (k ∈ l ∧ ¬ fitSkipped degrees k
            ∧ a = mleAlpha degrees k ∧ ks = ksOf degrees k))
      ∧ (∀ k' ∈ l, ¬ fitSkipped degrees k' → ks ≤ ksOf degrees k')
      ∧ (∀ bk ba bks, st = some (bk, ba, bks) → ks ≤ bks) := by
  intro l
  induction l with
  | nil =>
      intro st k a ks h
      simp only [List.foldl_nil] at h
      refine ⟨Or.inl h, by simp, fun bk ba bks hst => ?_⟩
      rw [h] at hst
      have := Option.some.inj hst
      simp only [Prod.mk.injEq] at this
      exact le_of_eq this.2.2
  | cons c rest ih =>
      intro st k a ks h
      rw [List.foldl_cons] at h
      by_cases hc : fitSkipped degrees c
      · rw [fitStep_skip st hc] at h
        obtain ⟨hA, hB, hC⟩ := ih st k a ks h
        refine ⟨?_, ?_, hC⟩
        · rcases hA with h1 | h1
          · exact Or.inl h1
          · exact Or.inr ⟨List.mem_cons_of_mem c h1.1, h1.2⟩
        · intro k' hk' hv
          rcases List.mem_cons.mp hk' with rfl | hm
          · exact absurd hc hv
          · exact hB k' hm hv
      · cases st with
        | none =>
            rw [fitStep_valid_none hc] at h
            obtain ⟨hA, hB, hC⟩ :=
              ih (some (c, mleAlpha degrees c, ksOf degrees c)) k a ks h
            have hks_le_c : ks ≤ ksOf degrees c :=
              hC c (mleAlpha degrees c) (ksOf degrees c) rfl
            refine ⟨?_, ?_, ?_⟩
            · rcases hA with h1 | h1
              · have := Option.some.inj h1
                simp only [Prod.mk.injEq] at this
                obtain ⟨rfl, rfl, rfl⟩ := this
                exact Or.inr ⟨List.mem_cons_self c rest, hc, rfl, rfl⟩
              · exact Or.inr ⟨List.mem_cons_of_mem c h1.1, h1.2⟩
            · intro k' hk' hv
              rcases List.mem_cons.mp hk' with rfl | hm
              · exact hks_le_c
              · exact hB k' hm hv
            · intro bk ba bks hst
              exact absurd hst (by simp)
        | some trip =>
            obtain ⟨bk, ba, bks⟩ := trip
            rw [fitStep_valid_some hc bk ba bks] at h
            by_cases hlt : ksOf degrees c < bks
            · rw [if_pos hlt] at h
              obtain ⟨hA, hB, hC⟩ :=
                ih (some (c, mleAlpha degrees c, ksOf degrees c)) k a ks h
              have hks_le_c : ks ≤ ksOf degrees c :=
                hC c (mleAlpha degrees c) (ksOf degrees c) rfl
              refine ⟨?_, ?_, ?_⟩
              · rcases hA with h1 | h1
                · have := Option.some.inj h1
                  simp only [Prod.mk.injEq] at this
                  obtain ⟨rfl, rfl, rfl⟩ := this
                  exact Or.inr ⟨List.mem_cons_self c rest, hc, rfl, rfl⟩
                · exact Or.inr ⟨List.mem_cons_of_mem c h1.1, h1.2⟩
              · intro k' hk' hv
                rcases List.mem_cons.mp hk' with rfl | hm
                · exact hks_le_c
                · exact hB k' hm hv
              · intro bk' ba' bks' hst
                have := Option.some.inj hst
                simp only [Prod.mk.injEq] at this
                obtain ⟨rfl, rfl, rfl⟩ := this
                exact le_trans hks_le_c (le_of_lt hlt)
            · rw [if_neg hlt] at h
              obtain ⟨hA, hB, hC⟩ := ih (some (bk, ba, bks)) k a ks h
              have hks_le_b : ks ≤ bks := hC bk ba bks rfl
              refine ⟨?_, ?_, ?_⟩
              · rcases hA with h1 | h1
                · exact Or.inl h1
                · exact Or.inr ⟨List.mem_cons_of_mem c h1.1, h1.2⟩
              · intro k' hk' hv
                rcases List.mem_cons.mp hk' with rfl | hm
                · exact le_trans hks_le_b (not_lt.mp hlt)
                · exact hB k' hm hv
              · intro bk' ba' bks' hst
                have := Option.some.inj hst
                simp only [Prod.mk.injEq] at this
                obtain ⟨rfl, rfl, rfl⟩ := this
                exact hks_le_b

/-- Claim C1: the fitter evaluates exactly the cutoffs {1, 2, 3, 5, 10, 20};
a candidate is skipped iff fewer than 50 values survive it or its sum_log is
nonpositive; it returns `none` exactly when every candidate is skipped, and
otherwise returns a surviving candidate with its MLE exponent
1 + n / sum_log and its KS statistic, minimal among all surviving
candidates. -/
theorem alpha_kmin_search_spec (degrees : List ℕ) :
    (estimate_alpha_with_kmin_search degrees = none
      ↔ ∀ k ∈ candidateKmins, fitSkipped degrees k)
    ∧ (∀ (kmin : ℕ) (alpha ks : ℝ),
        estimate_alpha_with_kmin_search degrees = some (kmin, alpha, ks) →
        kmin ∈ candidateKmins ∧ ¬ fitSkipped degrees kmin
          ∧ alpha = 1 + ((tailValues degrees kmin).length : ℝ) / sumLog degrees kmin
          ∧ ks = power_law_ks_test degrees alpha kmin
          ∧ ∀ k ∈ candidateKmins, ¬ fitSkipped degrees k →
              ks ≤ power_law_ks_test degrees (mleAlpha degrees k) k) := by
  constructor
  · unfold estimate_alpha_with_kmin_search
    rw [fit_foldl_none_iff degrees candidateKmins none]
    simp
  · intro kmin alpha ks h
    obtain ⟨hA, hB, -⟩ :=
      fit_foldl_some_char degrees candidateKmins none kmin alpha ks h
    rcases hA with h1 | ⟨hmem, hval, ha, hks⟩
    · exact absurd h1 (by simp)
    · subst ha
      subst hks
      exact ⟨hmem, hval, rfl, rfl, hB⟩

/-- Witness for C1: on the empty degree vector every cutoff is skipped (no
values survive), so the fitter reports no fit. -/
theorem alpha_kmin_search_spec_witness :
    estimate_alpha_with_kmin_search [] = none :=
  (alpha_kmin_search_spec []).1.mpr
    (fun k _ => Or.inl (by norm_num [tailValues]))
